import Mathlib

/-!
Verification of the octos pipeline execution engine against its specification.

The Go source is shallowly embedded: Go strings become `List Char` (named `GS`),
Go maps become association lists whose list order stands for the map's
(unspecified) iteration order, and the effectful engine is parameterised by an
`EngineInput` oracle giving the agent results, artifact store contents and
file-change observations, while callbacks, agent invocations and checkpoint
writes are recorded as traces in a `RunResult`.
-/

/-- Go strings, embedded as lists of characters. -/
abbrev GS := List Char

/-- Conversion from a Lean string literal to the embedded string type. -/
def gs (s : String) : GS := s.data

/-- The opening brace character (used to build placeholder delimiters). -/
def lbr : Char := Char.ofNat 123

/-- The closing brace character. -/
def rbr : Char := Char.ofNat 125

/-- The single-quote character. -/
def squote : Char := Char.ofNat 39

/-- The double-quote character. -/
def dquote : Char := Char.ofNat 34

/-- Embedding of Go `strings.HasPrefix` (first argument is the prefix). -/
def goHasPrefixOf : GS → GS → Bool
  | [], _ => true
  | _ :: _, [] => false
  | p :: ps, c :: cs => p = c && goHasPrefixOf ps cs

/-- Embedding of Go `strings.HasSuffix` (first argument is the suffix). -/
def goHasSuffixOf (sfx s : GS) : Bool :=
  goHasPrefixOf sfx.reverse s.reverse

/-- Embedding of Go `strings.Contains s pat` as `hasSub pat s`:
the pattern occurs as a contiguous substring of `s`. -/
def hasSub (pat : GS) : GS → Bool
  | [] => goHasPrefixOf pat []
  | c :: rest => goHasPrefixOf pat (c :: rest) || hasSub pat rest

/-- Split at the first occurrence of `pat`, returning the part before and the
part after it; `none` when `pat` does not occur.  This models the result pair
of Go `strings.SplitN(s, pat, 2)` in the case where `pat` occurs in `s`. -/
def splitFirst (pat : GS) : GS → Option (GS × GS)
  | [] => if goHasPrefixOf pat [] = true then some ([], []) else none
  | c :: rest =>
    if goHasPrefixOf pat (c :: rest) = true then some ([], (c :: rest).drop pat.length)
    else
      match splitFirst pat rest with
      | some pr => some (c :: pr.1, pr.2)
      | none => none

/-- Remove the longest run of characters satisfying `pred` from the front. -/
def trimLeftP (pred : Char → Bool) : GS → GS
  | [] => []
  | c :: rest => if pred c then trimLeftP pred rest else c :: rest

/-- Remove characters satisfying `pred` from both ends, modelling Go
`strings.Trim` / `strings.TrimSpace` with `pred` as the cut set. -/
def trimEndsP (pred : Char → Bool) (s : GS) : GS :=
  (trimLeftP pred ((trimLeftP pred s).reverse)).reverse

/-- The cut set of `strings.Trim(s, "' \"")` used by the condition evaluator:
single quote, space and double quote. -/
def isQuoteOrSpace (c : Char) : Bool :=
  c = squote || c = ' ' || c = dquote

/-- Whitespace recognised by Go `unicode.IsSpace` (the Latin-1 range). -/
def isGoSpace (c : Char) : Bool :=
  c.toNat = 32 || c.toNat = 9 || c.toNat = 10 || c.toNat = 11 || c.toNat = 12 ||
  c.toNat = 13 || c.toNat = 133 || c.toNat = 160

/-- Embedding of `strings.Trim(s, "' \"")`. -/
def goTrimQuote (s : GS) : GS := trimEndsP isQuoteOrSpace s

/-- Embedding of `strings.TrimSpace`. -/
def goTrimSpace (s : GS) : GS := trimEndsP isGoSpace s

/-- ASCII case lowering of one character, modelling `strings.ToLower` on the
characters the engine manipulates. -/
def lowerChar (c : Char) : Char :=
  if 65 ≤ c.toNat ∧ c.toNat ≤ 90 then Char.ofNat (c.toNat + 32) else c

/-- Embedding of Go `strings.ToLower`. -/
def goToLower (s : GS) : GS := s.map lowerChar

/-- Fuel-driven worker for `replaceAll`; the fuel is an upper bound on the
number of characters still to be consumed, which makes the recursion
structural and hence kernel-computable. -/
def replaceAllFuel (pat rep : GS) : Nat → GS → GS
  | 0, s => s
  | fuel + 1, s =>
    match s with
    | [] => []
    | c :: rest =>
      if pat ≠ [] ∧ goHasPrefixOf pat (c :: rest) = true then
        rep ++ replaceAllFuel pat rep fuel ((c :: rest).drop pat.length)
      else
        c :: replaceAllFuel pat rep fuel rest

/-- Embedding of Go `strings.ReplaceAll s pat rep` (left-to-right,
non-overlapping).  The engine never calls it with an empty pattern, and the
embedding leaves `s` unchanged in that case. -/
def replaceAll (pat rep s : GS) : GS := replaceAllFuel pat rep s.length s

/-- Number of occurrences of `x` as an element of `l`. -/
def countGS (x : GS) : List GS → Nat
  | [] => 0
  | y :: rest => (if y = x then 1 else 0) + countGS x rest

/-- First-match association-list lookup, embedding a Go map read. -/
def lookupA {α : Type} : List (GS × α) → GS → Option α
  | [], _ => none
  | p :: rest, k => if p.1 = k then some p.2 else lookupA rest k

/-- Association-list update, embedding a Go map write: overwrite the existing
entry for the key, or append a fresh entry. -/
def updateA {α : Type} : List (GS × α) → GS → α → List (GS × α)
  | [], k, v => [(k, v)]
  | p :: rest, k, v => if p.1 = k then (k, v) :: rest else p :: updateA rest k v

/-- Length (including the dot) of the `filepath.Ext` extension, scanning the
reversed path: characters up to the last dot, stopping at a path separator. -/
def extLenRev : List Char → Option Nat
  | [] => none
  | c :: rest =>
    if c = '.' then some 1
    else if c = '/' then none
    else (extLenRev rest).map (· + 1)

/-- Embedding of `strings.TrimSuffix(name, filepath.Ext(name))`, the
extension-stripping used to derive artifact keys. -/
def stripExt (s : GS) : GS :=
  match extLenRev s.reverse with
  | some n => s.take (s.length - n)
  | none => s

/-- Decimal rendering of a natural number, for the `%d` verbs in validation
messages. -/
def natToGS (n : Nat) : GS := Nat.toDigits 10 n

/-- Placeholder for a step output: the literal text between double braces,
`stepname.output`, as produced by `fmt.Sprintf` in the source. -/
def phOut (name : GS) : GS := [lbr, lbr] ++ name ++ gs ".output" ++ [rbr, rbr]

/-- Placeholder for an artifact: `artifact.name` between double braces. -/
def phArt (name : GS) : GS := [lbr, lbr] ++ gs "artifact." ++ name ++ [rbr, rbr]

/-- Placeholder for a context key: `context.key` between double braces. -/
def phCtx (key : GS) : GS := [lbr, lbr] ++ gs "context." ++ key ++ [rbr, rbr]

/-- The separator recognised by the `contains` condition form. -/
def containsSep : GS := gs " contains "

/-- The separator recognised by the `equals` condition form. -/
def equalsSep : GS := gs " equals "

/-- The literal `not_empty` token of the condition grammar. -/
def notEmptyTok : GS := gs "not_empty"

/-- The suffix checked by the `not_empty` branch of `evaluateCondition`. -/
def notEmptySuffix : GS := gs " not_empty"

/-- Variable substitution performed at the top of `evaluateCondition`: every
`stepname.output` and `artifact.name` placeholder is replaced by literal
substring replacement.  The Go source ranges over two maps; the association
lists are iterated in list order, which stands for the map iteration order. -/
def substituteAll (cond : GS) (outputs artifacts : List (GS × GS)) : GS :=
  let c1 := outputs.foldl (fun acc p => replaceAll (phOut p.1) p.2 acc) cond
  artifacts.foldl (fun acc p => replaceAll (phArt p.1) p.2 acc) c1

/-- Embedding of `evaluateCondition` from the source: empty conditions hold;
after substitution the `contains`, `equals` and `not_empty` forms are tried in
that order (Go returns from the `contains` branch whenever the separator
occurs, which is exactly when `SplitN` yields two parts); anything else is
permissively true. -/
def evaluateCondition (condition : GS) (outputs artifacts : List (GS × GS)) : Bool :=
  if condition = [] then true
  else
    match splitFirst containsSep (substituteAll condition outputs artifacts) with
    | some lr =>
      hasSub (goToLower (goTrimQuote lr.2)) (goToLower (goTrimQuote lr.1))
    | none =>
      match splitFirst equalsSep (substituteAll condition outputs artifacts) with
      | some lr => decide (goTrimQuote lr.1 = goTrimQuote lr.2)
      | none =>
        if substituteAll condition outputs artifacts = notEmptyTok ∨
            goHasSuffixOf notEmptySuffix (substituteAll condition outputs artifacts) = true then
          decide (goTrimSpace (substituteAll condition outputs artifacts) ≠ []) &&
            decide (substituteAll condition outputs artifacts ≠ notEmptyTok)
        else true

/-- Values held by the global context map (`map[string]any` restricted to the
scalar-or-list-of-scalar shapes the specification's data model allows). -/
inductive GoValue where
  | str (s : GS)
  | list (elems : List GS)
deriving DecidableEq

/-- Embedding of `strings.Join`. -/
def joinGS (sep : GS) : List GS → GS
  | [] => []
  | [x] => x
  | x :: y :: rest => x ++ sep ++ joinGS sep (y :: rest)

/-- Rendering by the `%v` verb of `fmt`. -/
def render : GoValue → GS
  | .str s => s
  | .list es => gs "[" ++ joinGS (gs " ") es ++ gs "]"

/-- Execution context: global configuration and accumulated step outputs.
Both are Go maps in the source; the association lists are kept in map
iteration order. -/
structure Context where
  global : List (GS × GoValue)
  outputs : List (GS × GS)
deriving DecidableEq

/-- The dash-prefixed newline-joined rendering of the `rules` context list
(`fmt.Sprintf("- %v", r)` joined with newlines). -/
def rulesBullets (es : List GS) : GS :=
  joinGS (gs "\n") (es.map (fun r => gs "- " ++ r))

/-- Embedding of `interpolate` from the source: replace all step-output
placeholders (iterating the outputs map), then, only when the global context
holds a list under the key `rules`, replace the `context.rules` placeholder by
its bullet-list rendering.  No other context key is interpolated. -/
def interpolate (text : GS) (ctx : Context) : GS :=
  let result := ctx.outputs.foldl (fun acc p => replaceAll (phOut p.1) p.2 acc) text
  match lookupA ctx.global (gs "rules") with
  | some (GoValue.list es) => replaceAll (phCtx (gs "rules")) (rulesBullets es) result
  | _ => result

/-- One entry of the prior-outputs section of a composed prompt:
`fmt.Sprintf("[%s]:\n%s\n\n", name, output)`. -/
def outputEntry (name output : GS) : GS :=
  gs "[" ++ name ++ gs "]:\n" ++ output ++ gs "\n\n"

/-- The concatenated prior-outputs section of `buildPrompt`. -/
def outputsSection : List (GS × GS) → GS
  | [] => []
  | p :: rest => outputEntry p.1 p.2 ++ outputsSection rest

/-- The `key: value` lines of the global-context section of `buildPrompt`. -/
def globalSection : List (GS × GoValue) → GS
  | [] => []
  | p :: rest => p.1 ++ gs ": " ++ render p.2 ++ gs "\n" ++ globalSection rest

/-- Embedding of `buildPrompt` from the source: the fixed section headers, the
global context lines, the prior outputs (only when any exist), and the new
interpolated task. -/
def buildPrompt (ctx : Context) (newTask : GS) : GS :=
  gs "=== CONTEXTO GLOBAL ===\n" ++ globalSection ctx.global ++
  (if ctx.outputs = [] then []
   else gs "\n=== OUTPUT PASOS ANTERIORES ===\n" ++ outputsSection ctx.outputs) ++
  gs "=== NUEVA TAREA ===\n" ++ newTask

/-- Agent invocation: executable and argument list. -/
structure AgentConfig where
  cmd : GS
  args : List GS
deriving DecidableEq

/-- One pipeline step, as deserialised from the definition file. -/
structure Step where
  name : GS
  prompt : GS
  saveTo : GS
  loadFrom : GS
  when : GS
  agent : Option AgentConfig
deriving DecidableEq

/-- A pipeline definition. -/
structure Pipeline where
  file : GS
  agent : AgentConfig
  context : List (GS × GoValue)
  steps : List Step
deriving DecidableEq

deriving instance DecidableEq for Except

/-- The per-step half of `Validate`: first offending step wins, messages
carry the one-based index (and the name, for a missing prompt). -/
def validateSteps : Nat → List Step → Except GS Unit
  | _, [] => Except.ok ()
  | i, s :: rest =>
    if s.name = [] then
      Except.error (gs "step " ++ natToGS (i + 1) ++ gs ": name is required")
    else if s.prompt = [] then
      Except.error (gs "step " ++ natToGS (i + 1) ++ gs " (" ++ s.name ++
        gs "): prompt is required")
    else validateSteps (i + 1) rest

/-- Embedding of `(*Pipeline).Validate`: an empty `agent.cmd`, an empty step
list, or a step with an empty name or prompt is rejected with the source's
error message; `Validate` is pure and runs before any agent process exists. -/
def Validate (p : Pipeline) : Except GS Unit :=
  if p.agent.cmd = [] then Except.error (gs "agent.cmd is required")
  else if p.steps = [] then Except.error (gs "at least one step is required")
  else validateSteps 0 p.steps

/-- A `"+ path"` change entry. -/
def plusEntry (p : GS) : GS := gs "+ " ++ p

/-- An `"M path"` change entry. -/
def modEntry (p : GS) : GS := gs "M " ++ p

/-- A `"- path"` change entry. -/
def minusEntry (p : GS) : GS := gs "- " ++ p

/-- The first loop body of `detectFileChanges`: a path of the after snapshot
is new (`+`) when absent from the before snapshot, modified (`M`) when its
after time is strictly later (`afterTime.After(beforeTime)`), else silent. -/
def changeOfAfter (before : List (GS × Nat)) : GS × Nat → Option GS
  | (path, at2) =>
    match lookupA before path with
    | none => some (plusEntry path)
    | some bt => if bt < at2 then some (modEntry path) else none

/-- The second loop body of `detectFileChanges`: a path of the before
snapshot absent from the after snapshot is deleted (`-`). -/
def changeOfBefore (after : List (GS × Nat)) : GS × Nat → Option GS
  | (path, _) =>
    match lookupA after path with
    | none => some (minusEntry path)
    | some _ => none

/-- Embedding of `detectFileChanges`: the `afterFiles := scanDirectory(".")`
re-snapshot is abstracted as the `after` parameter; both snapshots map paths
to modification times. -/
def detectFileChanges (before after : List (GS × Nat)) : List GS :=
  after.filterMap (changeOfAfter before) ++ before.filterMap (changeOfBefore after)

/-- The Outputs key under which a loaded artifact is additionally stored:
`"artifact." + strings.TrimSuffix(name, filepath.Ext(name))`. -/
def artifactKey (filename : GS) : GS := gs "artifact." ++ stripExt filename

/-- Oracle for the engine's effects: the agent result per step index, the
artifact store contents, and the observed file changes per step index. -/
structure EngineInput where
  agentResult : Nat → Except GS GS
  loadArtifact : GS → Option GS
  fileChanges : Nat → List GS

/-- Callback notifications issued by the engine (durations are dropped). -/
inductive Event where
  | started (i : Nat) (prompt : GS)
  | fileChanged (i : Nat) (changes : List GS)
  | output (i : Nat) (text : GS)
  | completedOk (i : Nat)
  | completedErr (i : Nat) (err : GS)
deriving DecidableEq

/-- Index of the step an event belongs to. -/
def eventIndex : Event → Nat
  | .started i _ => i
  | .fileChanged i _ => i
  | .output i _ => i
  | .completedOk i => i
  | .completedErr i _ => i

/-- Checkpoint record, as saved by `SaveState` (file identity and timestamps
are dropped; the resume logic only reads the index and the outputs). -/
structure PipelineState where
  lastCompletedStep : Nat
  outputs : List (GS × GS)
deriving DecidableEq

/-- How a run ends: full success, fail-fast on an agent error, or the runtime
panic of an unguarded out-of-range step access. -/
inductive RunOutcome where
  | ok
  | stepFailed (i : Nat) (msg : GS)
  | panicked (msg : GS)
deriving DecidableEq

/-- Observable result of a run: the callback trace, the agent invocations
with their fully composed prompts, the trace of checkpoint saves, the
artifact writes, the checkpoint left on disk, and the outcome. -/
structure RunResult where
  events : List Event
  invocations : List (Nat × GS)
  saved : List PipelineState
  artifactWrites : List (GS × GS)
  checkpoint : Option PipelineState
  outcome : RunOutcome
deriving DecidableEq

/-- The artifact-loading phase of one engine iteration (`step.LoadFrom`):
on a successful load the content is stored in the artifacts map under the
extension-stripped name and in the Outputs map under the `artifact.`-prefixed
key; a failed load only warns and changes nothing. -/
def stepOA (inp : EngineInput) (step : Step) (outputs artifacts : List (GS × GS)) :
    List (GS × GS) × List (GS × GS) :=
  if step.loadFrom ≠ [] then
    match inp.loadArtifact step.loadFrom with
    | some content =>
      (updateA outputs (artifactKey step.loadFrom) content,
       updateA artifacts (stripExt step.loadFrom) content)
    | none => (outputs, artifacts)
  else (outputs, artifacts)

/-- The interpolated prompt of one engine iteration
(`prompt := interpolate(step.Prompt, ctx)`, after the artifact load). -/
def stepPrompt (inp : EngineInput) (global : List (GS × GoValue)) (step : Step)
    (outputs artifacts : List (GS × GS)) : GS :=
  interpolate step.prompt ⟨global, (stepOA inp step outputs artifacts).1⟩

/-- The fully composed prompt handed to the agent
(`fullPrompt := buildPrompt(ctx, prompt)`). -/
def stepFullPrompt (inp : EngineInput) (global : List (GS × GoValue)) (step : Step)
    (outputs artifacts : List (GS × GS)) : GS :=
  buildPrompt ⟨global, (stepOA inp step outputs artifacts).1⟩
    (stepPrompt inp global step outputs artifacts)

/-- The Outputs map after a successful step: the loaded maps extended with
`ctx.Outputs[step.Name] = output`. -/
def stepOutputs2 (inp : EngineInput) (step : Step)
    (outputs artifacts : List (GS × GS)) (out : GS) : List (GS × GS) :=
  updateA (stepOA inp step outputs artifacts).1 step.name out

/-- The step loop of `RunPipelineWithCallbacks`, embedded over the remaining
step list (`i` is the absolute index of the head step).  Each iteration:
condition check (silent skip), artifact load (`stepOA`), interpolation and
prompt composition, agent invocation, then on failure the completion event
with the error and an immediate return keeping the disk checkpoint, and on
success the file-change and output callbacks, the artifact write, and a
checkpoint save (`SaveState`); an exhausted step list clears the checkpoint
(`ClearState`) and succeeds. -/
def runSteps (inp : EngineInput) (global : List (GS × GoValue)) :
    List Step → Nat → List (GS × GS) → List (GS × GS) → Option PipelineState → RunResult
  | [], _, _, _, _ =>
    { events := [], invocations := [], saved := [], artifactWrites := [],
      checkpoint := none, outcome := .ok }
  | step :: more, i, outputs, artifacts, disk =>
    if evaluateCondition step.when outputs artifacts = false then
      runSteps inp global more (i + 1) outputs artifacts disk
    else
      match inp.agentResult i with
      | .error e =>
        { events := [.started i (stepPrompt inp global step outputs artifacts),
            .completedErr i e],
          invocations := [(i, stepFullPrompt inp global step outputs artifacts)],
          saved := [], artifactWrites := [],
          checkpoint := disk,
          outcome := .stepFailed i (gs "step " ++ step.name ++ gs " failed: " ++ e) }
      | .ok out =>
        { events := [.started i (stepPrompt inp global step outputs artifacts)] ++
            (if inp.fileChanges i ≠ [] then [.fileChanged i (inp.fileChanges i)] else []) ++
            [.output i out, .completedOk i] ++
            (runSteps inp global more (i + 1) (stepOutputs2 inp step outputs artifacts out)
              (stepOA inp step outputs artifacts).2
              (some ⟨i, stepOutputs2 inp step outputs artifacts out⟩)).events,
          invocations := (i, stepFullPrompt inp global step outputs artifacts) ::
            (runSteps inp global more (i + 1) (stepOutputs2 inp step outputs artifacts out)
              (stepOA inp step outputs artifacts).2
              (some ⟨i, stepOutputs2 inp step outputs artifacts out⟩)).invocations,
          saved := (⟨i, stepOutputs2 inp step outputs artifacts out⟩ : PipelineState) ::
            (runSteps inp global more (i + 1) (stepOutputs2 inp step outputs artifacts out)
              (stepOA inp step outputs artifacts).2
              (some ⟨i, stepOutputs2 inp step outputs artifacts out⟩)).saved,
          artifactWrites := (if step.saveTo ≠ [] then [(step.saveTo, out)] else []) ++
            (runSteps inp global more (i + 1) (stepOutputs2 inp step outputs artifacts out)
              (stepOA inp step outputs artifacts).2
              (some ⟨i, stepOutputs2 inp step outputs artifacts out⟩)).artifactWrites,
          checkpoint :=
            (runSteps inp global more (i + 1) (stepOutputs2 inp step outputs artifacts out)
              (stepOA inp step outputs artifacts).2
              (some ⟨i, stepOutputs2 inp step outputs artifacts out⟩)).checkpoint,
          outcome :=
            (runSteps inp global more (i + 1) (stepOutputs2 inp step outputs artifacts out)
              (stepOA inp step outputs artifacts).2
              (some ⟨i, stepOutputs2 inp step outputs artifacts out⟩)).outcome }

/-- Embedding of `RunPipelineWithCallbacks`.  `disk` is the checkpoint store
contents (`StateExists`/`LoadState`); `silent` stands for
`onStart != nil || onComplete != nil`.  When resuming with a checkpoint the
start index is `lastCompletedStep + 1` and Outputs are restored; in
non-silent mode the source then prints `p.Steps[startStep].Name`, an
unguarded index that panics when the checkpoint points at or beyond the end
of the step list. -/
def RunPipelineWithCallbacks (inp : EngineInput) (p : Pipeline)
    (silent resume : Bool) (disk : Option PipelineState) : RunResult :=
  match resume, disk with
  | true, some st =>
    let startStep := st.lastCompletedStep + 1
    if silent then
      runSteps inp p.context (p.steps.drop startStep) startStep st.outputs [] disk
    else if startStep < p.steps.length then
      runSteps inp p.context (p.steps.drop startStep) startStep st.outputs [] disk
    else
      { events := [], invocations := [], saved := [], artifactWrites := [],
        checkpoint := disk, outcome := .panicked (gs "index out of range") }
  | _, _ => runSteps inp p.context p.steps 0 [] [] disk

/-- Disk checkpoint after a sequence of saves: the last save if any, else the
initial contents. -/
def lastSavedOr (saves : List PipelineState) (d : Option PipelineState) :
    Option PipelineState :=
  match saves.getLast? with
  | some c => some c
  | none => d

/-- A one-step pipeline used to exercise the resume logic. -/
def pW2 : Pipeline :=
  ⟨gs "pipeline.yaml", ⟨gs "claude", []⟩, [], [⟨gs "s1", gs "do it", [], [], [], none⟩]⟩

/-- An oracle whose agent always succeeds. -/
def inpW2 : EngineInput :=
  ⟨fun _ => .ok (gs "out"), fun _ => none, fun _ => []⟩

/-- An oracle whose agent always fails with the message `boom`. -/
def inpW1 : EngineInput :=
  ⟨fun _ => .error (gs "boom"), fun _ => none, fun _ => []⟩

/-- A plain step named `s1`. -/
def stepW1 : Step := ⟨gs "s1", gs "do it", [], [], [], none⟩

/-- A step loading the artifact `notes.txt`. -/
def stepW10 : Step := ⟨gs "plan", gs "write plan", [], gs "notes.txt", [], none⟩

/-- A follow-up step with no artifact involvement. -/
def stepW10b : Step := ⟨gs "build", gs "build it", [], [], [], none⟩

/-- An oracle whose artifact store holds `notes.txt` and whose agent
succeeds. -/
def inpW10 : EngineInput :=
  ⟨fun i => .ok (if i = 0 then gs "outA" else gs "outB"),
   fun f => if f = gs "notes.txt" then some (gs "hello") else none,
   fun _ => []⟩


theorem goHasPrefixOf_iff (p s : GS) : goHasPrefixOf p s = true ↔ ∃ t, s = p ++ t := by
  induction p generalizing s with
  | nil =>
    simp [goHasPrefixOf]
  | cons a p ih =>
    cases s with
    | nil =>
      simp [goHasPrefixOf]
    | cons c cs =>
      simp only [goHasPrefixOf, Bool.and_eq_true, decide_eq_true_eq, ih, List.cons_append]
      constructor
      · rintro ⟨rfl, t, rfl⟩
        exact ⟨t, rfl⟩
      · rintro ⟨t, ht⟩
        injection ht with h1 h2
        exact ⟨h1.symm, t, h2⟩

theorem goHasPrefixOf_append (p t : GS) : goHasPrefixOf p (p ++ t) = true :=
  (goHasPrefixOf_iff p (p ++ t)).mpr ⟨t, rfl⟩

theorem hasSub_iff (pat s : GS) : hasSub pat s = true ↔ ∃ u v, s = u ++ pat ++ v := by
  induction s with
  | nil =>
    rw [hasSub, goHasPrefixOf_iff]
    constructor
    · rintro ⟨t, ht⟩
      exact ⟨[], t, by simpa using ht⟩
    · rintro ⟨u, v, huv⟩
      rcases List.append_eq_nil.mp huv.symm with ⟨h1, hv⟩
      rcases List.append_eq_nil.mp h1 with ⟨hu, hp⟩
      exact ⟨[], by simp [hp]⟩
  | cons c rest ih =>
    rw [hasSub, Bool.or_eq_true, goHasPrefixOf_iff, ih]
    constructor
    · rintro (⟨t, ht⟩ | ⟨u, v, huv⟩)
      · exact ⟨[], t, by simpa using ht⟩
      · exact ⟨c :: u, v, by simp [huv]⟩
    · rintro ⟨u, v, huv⟩
      cases u with
      | nil => exact Or.inl ⟨v, by simpa using huv⟩
      | cons x u =>
        simp only [List.cons_append] at huv
        injection huv with h1 h2
        exact Or.inr ⟨u, v, h2⟩

theorem splitFirst_eq_none (pat s : GS) (h : hasSub pat s = false) :
    splitFirst pat s = none := by
  induction s with
  | nil =>
    rw [hasSub] at h
    rw [splitFirst]
    simp [h]
  | cons c rest ih =>
    rw [hasSub, Bool.or_eq_false_iff] at h
    rw [splitFirst, if_neg (by simp [h.1]), ih h.2]

theorem dropLast_cons_ne (a : Char) (l : GS) (h : l ≠ []) :
    (a :: l).dropLast = a :: l.dropLast := by
  cases l with
  | nil => exact absurd rfl h
  | cons b m => rfl

theorem splitFirst_append_sep (pat l r : GS) (hne : pat ≠ [])
    (hfirst : hasSub pat ((l ++ pat).dropLast) = false) :
    splitFirst pat (l ++ pat ++ r) = some (l, r) := by
  induction l with
  | nil =>
    simp only [List.nil_append]
    cases pat with
    | nil => exact absurd rfl hne
    | cons a p =>
      rw [List.cons_append, splitFirst,
        if_pos (show goHasPrefixOf (a :: p) (a :: (p ++ r)) = true from
          goHasPrefixOf_append (a :: p) r)]
      have hd : (a :: (p ++ r)).drop (a :: p).length = r := List.drop_left (a :: p) r
      rw [hd]
  | cons c l ih =>
    have hshape : (c :: l) ++ pat ++ r = c :: (l ++ pat ++ r) := by simp
    have hlp : l ++ pat ≠ [] := fun hx => hne (List.append_eq_nil.mp hx).2
    have hdrop : ((c :: l) ++ pat).dropLast = c :: (l ++ pat).dropLast := by
      rw [List.cons_append, dropLast_cons_ne c (l ++ pat) hlp]
    have hparts : goHasPrefixOf pat (c :: (l ++ pat).dropLast) = false ∧
        hasSub pat ((l ++ pat).dropLast) = false := by
      have h := hfirst
      rw [hdrop, hasSub, Bool.or_eq_false_iff] at h
      exact h
    have hfx : goHasPrefixOf pat (c :: (l ++ pat ++ r)) = false := by
      cases hb : goHasPrefixOf pat (c :: (l ++ pat ++ r)) with
      | false => rfl
      | true =>
        exfalso
        obtain ⟨t, ht⟩ := (goHasPrefixOf_iff _ _).mp hb
        have hXr : ((c :: l) ++ pat) ++ r = pat ++ t := by
          rw [show ((c :: l) ++ pat) ++ r = c :: (l ++ pat ++ r) by simp, ht]
        have hXlen : l.length + pat.length ≤ ((c :: l) ++ pat).length := by
          simp only [List.length_append, List.length_cons]
          omega
        have hlen : ((c :: l) ++ pat).dropLast
            = ((c :: l) ++ pat).take (l.length + pat.length) := by
          rw [List.dropLast_eq_take]
          congr 1
          simp only [List.length_append, List.length_cons]
          omega
        have hpre : (((c :: l) ++ pat) ++ r).take (l.length + pat.length)
            = ((c :: l) ++ pat).take (l.length + pat.length) :=
          List.take_append_of_le_length hXlen
        have hpat : (((c :: l) ++ pat) ++ r).take pat.length = pat := by
          rw [hXr]
          exact List.take_left pat t
        have htake : (((c :: l) ++ pat).dropLast).take pat.length = pat := by
          rw [hlen, ← hpre, List.take_take,
            Nat.min_eq_left (Nat.le_add_left _ _), hpat]
        have hsub1 : hasSub pat (((c :: l) ++ pat).dropLast) = true := by
          rw [hasSub_iff]
          refine ⟨[], (((c :: l) ++ pat).dropLast).drop pat.length, ?_⟩
          conv_lhs => rw [← List.take_append_drop pat.length (((c :: l) ++ pat).dropLast)]
          rw [htake]
          simp
        exact Bool.noConfusion (hsub1.symm.trans hfirst)
    rw [hshape, splitFirst,
      if_neg (fun hq => Bool.noConfusion (hfx.symm.trans hq)), ih hparts.2]

theorem mem_trimLeftP (pred : Char → Bool) (s : GS) (c : Char)
    (hc : pred c = false) (hm : c ∈ s) : c ∈ trimLeftP pred s := by
  induction s with
  | nil => cases hm
  | cons a rest ih =>
    by_cases h : pred a = true
    · rw [trimLeftP, if_pos h]
      rcases List.mem_cons.mp hm with rfl | hm2
      · rw [h] at hc
        exact Bool.noConfusion hc
      · exact ih hm2
    · rw [trimLeftP, if_neg h]
      exact hm

theorem trimEndsP_ne_nil (pred : Char → Bool) (s : GS) (c : Char)
    (hc : pred c = false) (hm : c ∈ s) : trimEndsP pred s ≠ [] := by
  have h1 : c ∈ trimLeftP pred s := mem_trimLeftP pred s c hc hm
  have h2 : c ∈ (trimLeftP pred s).reverse := List.mem_reverse.mpr h1
  have h3 : c ∈ trimLeftP pred ((trimLeftP pred s).reverse) := mem_trimLeftP _ _ c hc h2
  have h4 : c ∈ trimEndsP pred s := by
    rw [trimEndsP]
    exact List.mem_reverse.mpr h3
  exact List.ne_nil_of_mem h4

theorem lookupA_updateA_self {α : Type} (l : List (GS × α)) (k : GS) (v : α) :
    lookupA (updateA l k v) k = some v := by
  induction l with
  | nil => simp [updateA, lookupA]
  | cons p rest ih =>
    by_cases h : p.1 = k
    · rw [updateA, if_pos h, lookupA, if_pos rfl]
    · rw [updateA, if_neg h, lookupA, if_neg h, ih]

theorem lookupA_updateA_ne {α : Type} (l : List (GS × α)) (k k' : GS) (v : α)
    (h : k' ≠ k) : lookupA (updateA l k' v) k = lookupA l k := by
  induction l with
  | nil => simp [updateA, lookupA, h]
  | cons p rest ih =>
    by_cases hp : p.1 = k'
    · rw [updateA, if_pos hp, lookupA, lookupA, if_neg h, if_neg (hp ▸ h)]
    · rw [updateA, if_neg hp]
      by_cases hpk : p.1 = k
      · rw [lookupA, if_pos hpk, lookupA, if_pos hpk]
      · rw [lookupA, if_neg hpk, lookupA, if_neg hpk, ih]

theorem lookupA_mem {α : Type} (l : List (GS × α)) (k : GS) (v : α)
    (h : lookupA l k = some v) : (k, v) ∈ l := by
  induction l with
  | nil => simp [lookupA] at h
  | cons p rest ih =>
    obtain ⟨a, b⟩ := p
    rw [lookupA] at h
    by_cases hp : a = k
    · subst hp
      rw [if_pos rfl] at h
      have hb : b = v := Option.some.inj h
      subst hb
      exact List.mem_cons_self _ _
    · rw [if_neg hp] at h
      exact List.mem_cons_of_mem _ (ih h)

theorem replaceAllFuel_nil (pat rep : GS) (fuel : Nat) :
    replaceAllFuel pat rep fuel [] = [] := by
  cases fuel <;> rfl

theorem replaceAll_self (pat rep : GS) (h : pat ≠ []) :
    replaceAll pat rep pat = rep := by
  cases pat with
  | nil => exact absurd rfl h
  | cons a p =>
    show replaceAllFuel (a :: p) rep (p.length + 1) (a :: p) = rep
    rw [replaceAllFuel,
      if_pos ⟨h, (goHasPrefixOf_iff _ _).mpr ⟨[], (List.append_nil _).symm⟩⟩,
      show (a :: p).drop (a :: p).length = [] from List.drop_length _,
      replaceAllFuel_nil, List.append_nil]

theorem foldl_replaceAll_nil (mk : GS → GS) (l : List (GS × GS)) :
    l.foldl (fun acc p => replaceAll (mk p.1) p.2 acc) [] = [] := by
  induction l with
  | nil => rfl
  | cons q qs ih =>
    simp only [List.foldl_cons]
    rw [show replaceAll (mk q.1) q.2 [] = [] from rfl]
    exact ih

theorem substituteAll_nil (outputs artifacts : List (GS × GS)) :
    substituteAll [] outputs artifacts = [] := by
  have h1 : substituteAll [] outputs artifacts
      = artifacts.foldl (fun acc p => replaceAll (phArt p.1) p.2 acc)
        (outputs.foldl (fun acc p => replaceAll (phOut p.1) p.2 acc) []) := rfl
  rw [h1, foldl_replaceAll_nil phOut, foldl_replaceAll_nil phArt]

theorem runSteps_nil (inp : EngineInput) (global : List (GS × GoValue)) (i : Nat)
    (outputs artifacts : List (GS × GS)) (disk : Option PipelineState) :
    runSteps inp global [] i outputs artifacts disk
      = ⟨[], [], [], [], none, .ok⟩ := rfl

theorem runSteps_cons_skip (inp : EngineInput) (global : List (GS × GoValue))
    (step : Step) (more : List Step) (i : Nat)
    (outputs artifacts : List (GS × GS)) (disk : Option PipelineState)
    (h : evaluateCondition step.when outputs artifacts = false) :
    runSteps inp global (step :: more) i outputs artifacts disk
      = runSteps inp global more (i + 1) outputs artifacts disk := by
  rw [runSteps, if_pos h]

theorem runSteps_cons_err (inp : EngineInput) (global : List (GS × GoValue))
    (step : Step) (more : List Step) (i : Nat)
    (outputs artifacts : List (GS × GS)) (disk : Option PipelineState) (e : GS)
    (hc : evaluateCondition step.when outputs artifacts = true)
    (he : inp.agentResult i = .error e) :
    runSteps inp global (step :: more) i outputs artifacts disk
      = ⟨[.started i (stepPrompt inp global step outputs artifacts), .completedErr i e],
         [(i, stepFullPrompt inp global step outputs artifacts)], [], [], disk,
         .stepFailed i (gs "step " ++ step.name ++ gs " failed: " ++ e)⟩ := by
  rw [runSteps, if_neg (by simp [hc]), he]

theorem runSteps_cons_ok (inp : EngineInput) (global : List (GS × GoValue))
    (step : Step) (more : List Step) (i : Nat)
    (outputs artifacts : List (GS × GS)) (disk : Option PipelineState) (out : GS)
    (hc : evaluateCondition step.when outputs artifacts = true)
    (ho : inp.agentResult i = .ok out) :
    runSteps inp global (step :: more) i outputs artifacts disk
      = ⟨[.started i (stepPrompt inp global step outputs artifacts)] ++
          (if inp.fileChanges i ≠ [] then [.fileChanged i (inp.fileChanges i)] else []) ++
          [.output i out, .completedOk i] ++
          (runSteps inp global more (i + 1) (stepOutputs2 inp step outputs artifacts out)
            (stepOA inp step outputs artifacts).2
            (some ⟨i, stepOutputs2 inp step outputs artifacts out⟩)).events,
         (i, stepFullPrompt inp global step outputs artifacts) ::
          (runSteps inp global more (i + 1) (stepOutputs2 inp step outputs artifacts out)
            (stepOA inp step outputs artifacts).2
            (some ⟨i, stepOutputs2 inp step outputs artifacts out⟩)).invocations,
         (⟨i, stepOutputs2 inp step outputs artifacts out⟩ : PipelineState) ::
          (runSteps inp global more (i + 1) (stepOutputs2 inp step outputs artifacts out)
            (stepOA inp step outputs artifacts).2
            (some ⟨i, stepOutputs2 inp step outputs artifacts out⟩)).saved,
         (if step.saveTo ≠ [] then [(step.saveTo, out)] else []) ++
          (runSteps inp global more (i + 1) (stepOutputs2 inp step outputs artifacts out)
            (stepOA inp step outputs artifacts).2
            (some ⟨i, stepOutputs2 inp step outputs artifacts out⟩)).artifactWrites,
         (runSteps inp global more (i + 1) (stepOutputs2 inp step outputs artifacts out)
            (stepOA inp step outputs artifacts).2
            (some ⟨i, stepOutputs2 inp step outputs artifacts out⟩)).checkpoint,
         (runSteps inp global more (i + 1) (stepOutputs2 inp step outputs artifacts out)
            (stepOA inp step outputs artifacts).2
            (some ⟨i, stepOutputs2 inp step outputs artifacts out⟩)).outcome⟩ := by
  rw [runSteps, if_neg (by simp [hc]), ho]

/-- Claim C2: the claim asserts that resuming is explicitly guarded against a
checkpoint whose last-completed index refers at or beyond the step count.
The source is not guarded: with callbacks absent (non-silent mode) the resume
message indexes `p.Steps[startStep]` directly, and a one-step pipeline resumed
from a checkpoint with last-completed index 0 panics with an index-out-of-range
runtime error, while the same resume in silent mode runs the empty remainder
and succeeds.  This theorem evaluates the engine at that failing input. -/
theorem C2_resume_out_of_range :
    (RunPipelineWithCallbacks inpW2 pW2 false true
        (some ⟨0, [(gs "s1", gs "out")]⟩)).outcome
      = .panicked (gs "index out of range") ∧
    (RunPipelineWithCallbacks inpW2 pW2 true true
        (some ⟨0, [(gs "s1", gs "out")]⟩)).outcome = .ok ∧
    (RunPipelineWithCallbacks inpW2 pW2 false true
        (some ⟨0, [(gs "s1", gs "out")]⟩)).checkpoint
      = some ⟨0, [(gs "s1", gs "out")]⟩ := by
  decide

/-- Claim C3: `evaluateCondition` implements the stated grammar: the empty condition
is true; after placeholder substitution, a condition splitting at the first
`" contains "` as `l contains r` evaluates to the case-insensitive substring
test of the quote/space-trimmed sides, and one splitting at the first
`" equals "` (with no `" contains "` anywhere) evaluates to the case-sensitive
exact match of the trimmed sides; with output a = "Yes please",
"a-placeholder contains yes" is true, and with a = "done",
"a-placeholder equals DONE" is false. -/
theorem C3_condition_grammar :
    (∀ (outputs artifacts : List (GS × GS)),
      evaluateCondition [] outputs artifacts = true) ∧
    (∀ (cond l r : GS) (outputs artifacts : List (GS × GS)),
      substituteAll cond outputs artifacts = l ++ containsSep ++ r →
      hasSub containsSep ((l ++ containsSep).dropLast) = false →
      cond ≠ [] →
      evaluateCondition cond outputs artifacts
        = hasSub (goToLower (goTrimQuote r)) (goToLower (goTrimQuote l))) ∧
    (∀ (cond l r : GS) (outputs artifacts : List (GS × GS)),
      substituteAll cond outputs artifacts = l ++ equalsSep ++ r →
      hasSub containsSep (l ++ equalsSep ++ r) = false →
      hasSub equalsSep ((l ++ equalsSep).dropLast) = false →
      cond ≠ [] →
      evaluateCondition cond outputs artifacts
        = decide (goTrimQuote l = goTrimQuote r)) ∧
    (evaluateCondition (phOut (gs "a") ++ gs " contains yes")
      [(gs "a", gs "Yes please")] [] = true) ∧
    (evaluateCondition (phOut (gs "a") ++ gs " equals DONE")
      [(gs "a", gs "done")] [] = false) := by
  refine ⟨?_, ?_, ?_, ?_, ?_⟩
  · intro outputs artifacts
    rw [evaluateCondition, if_pos rfl]
  · intro cond l r outputs artifacts hsub hfirst hne
    rw [evaluateCondition, if_neg hne, hsub,
      splitFirst_append_sep containsSep l r (by decide) hfirst]
  · intro cond l r outputs artifacts hsub hnc hfirst hne
    rw [evaluateCondition, if_neg hne, hsub, splitFirst_eq_none _ _ hnc,
      splitFirst_append_sep equalsSep l r (by decide) hfirst]
  · decide
  · decide

/-- Witness for C3: the general branches applied at concrete conditions. -/
theorem C3_condition_grammar_witness :
    evaluateCondition (gs "abc contains ABC") [] [] = true ∧
    evaluateCondition (gs "x equals x") [] [] = true :=
  ⟨(C3_condition_grammar.2.1 (gs "abc contains ABC") (gs "abc") (gs "ABC") [] []
      (by decide) (by decide) (by decide)).trans (by decide),
   (C3_condition_grammar.2.2.1 (gs "x equals x") (gs "x") (gs "x") [] []
      (by decide) (by decide) (by decide) (by decide)).trans (by decide)⟩

/-- Claim C4: every non-empty condition whose substituted text matches none of the
recognized forms (no `" contains "` or `" equals "` separator, not the
`not_empty` token, no `" not_empty"` suffix) evaluates to true: the step
runs, and unrecognized syntax is neither an error nor "never run". -/
theorem C4_unrecognized_condition_runs (cond : GS) (outputs artifacts : List (GS × GS))
    (hne : cond ≠ [])
    (hc : hasSub containsSep (substituteAll cond outputs artifacts) = false)
    (he : hasSub equalsSep (substituteAll cond outputs artifacts) = false)
    (hn1 : substituteAll cond outputs artifacts ≠ notEmptyTok)
    (hn2 : goHasSuffixOf notEmptySuffix (substituteAll cond outputs artifacts) = false) :
    evaluateCondition cond outputs artifacts = true := by
  rw [evaluateCondition, if_neg hne, splitFirst_eq_none _ _ hc,
    splitFirst_eq_none _ _ he,
    if_neg (by
      rintro (h1 | h2)
      · exact hn1 h1
      · exact Bool.noConfusion (hn2.symm.trans h2))]

/-- Witness for C4: a free-text condition evaluates to true. -/
theorem C4_unrecognized_condition_runs_witness :
    evaluateCondition (gs "ship it when ready") [] [] = true :=
  C4_unrecognized_condition_runs (gs "ship it when ready") [] []
    (by decide) (by decide) (by decide) (by decide) (by decide)

/-- Counterexample for C5: a condition whose substituted text ends in
`" not_empty"` with a non-whitespace prefix but also contains the
`" contains "` separator is routed to the contains branch and evaluates to
false, refuting the claim's "returns true regardless". -/
theorem C5_counterexample :
    goHasSuffixOf notEmptySuffix
      (substituteAll (gs "x contains y not_empty") [] []) = true ∧
    substituteAll (gs "x contains y not_empty") [] []
      = gs "x contains y" ++ notEmptySuffix ∧
    (gs "x contains y").any (fun ch => !(isGoSpace ch)) = true ∧
    evaluateCondition (gs "x contains y not_empty") [] [] = false := by
  decide

/-- Amended claim C5: the `not_empty` form inspects the substituted condition
string, not any referenced value: when the substituted text is exactly
`not_empty` the condition evaluates to false, and when the substituted text
ends in `" not_empty"` with a non-whitespace prefix and contains neither the
`" contains "` nor the `" equals "` separator, it evaluates to true
regardless of any referenced output. -/
theorem C5_not_empty_amended :
    (∀ (cond : GS) (outputs artifacts : List (GS × GS)),
      substituteAll cond outputs artifacts = notEmptyTok →
      evaluateCondition cond outputs artifacts = false) ∧
    (∀ (cond p : GS) (outputs artifacts : List (GS × GS)),
      hasSub containsSep (substituteAll cond outputs artifacts) = false →
      hasSub equalsSep (substituteAll cond outputs artifacts) = false →
      substituteAll cond outputs artifacts = p ++ notEmptySuffix →
      p.any (fun ch => !(isGoSpace ch)) = true →
      evaluateCondition cond outputs artifacts = true) := by
  constructor
  · intro cond outputs artifacts hc
    have hne : cond ≠ [] := by
      intro hx
      rw [hx, substituteAll_nil] at hc
      exact absurd hc (by decide)
    rw [evaluateCondition, if_neg hne, hc]
    decide
  · intro cond p outputs artifacts hc he hsplit _hws
    have hne : cond ≠ [] := by
      intro hx
      rw [hx, substituteAll_nil] at hsplit
      exact absurd hsplit.symm (List.append_ne_nil_of_right_ne_nil p (by decide))
    have hnetok : substituteAll cond outputs artifacts ≠ notEmptyTok := by
      rw [hsplit]
      intro hx
      have hlen := congrArg List.length hx
      rw [List.length_append] at hlen
      have h1 : notEmptySuffix.length = 10 := rfl
      have h2 : notEmptyTok.length = 9 := rfl
      omega
    have hsuf : goHasSuffixOf notEmptySuffix (substituteAll cond outputs artifacts)
        = true := by
      rw [hsplit, goHasSuffixOf, List.reverse_append]
      exact goHasPrefixOf_append _ _
    have hts : goTrimSpace (substituteAll cond outputs artifacts) ≠ [] := by
      rw [hsplit]
      exact trimEndsP_ne_nil isGoSpace _ 'y' (by decide)
        (List.mem_append.mpr (Or.inr (by decide)))
    rw [evaluateCondition, if_neg hne, splitFirst_eq_none _ _ hc,
      splitFirst_eq_none _ _ he, if_pos (Or.inr hsuf)]
    simp only [Bool.and_eq_true, decide_eq_true_eq]
    exact ⟨hts, hnetok⟩

/-- Witness for C5 (amended): the literal token evaluates to false, and a
suffixed occurrence evaluates to true. -/
theorem C5_not_empty_amended_witness :
    evaluateCondition notEmptyTok [] [] = false ∧
    evaluateCondition (gs "x not_empty") [] [] = true :=
  ⟨C5_not_empty_amended.1 notEmptyTok [] [] (by decide),
   C5_not_empty_amended.2 (gs "x not_empty") (gs "x") [] []
     (by decide) (by decide) (by decide) (by decide)⟩

/-- Claim C6: the claim asserts deterministic insertion-order interpolation.  The
source iterates a Go map (`for name, output := range ctx.Outputs`) whose
iteration order is unspecified and randomized: two iteration orders of the
same Outputs map (the two association lists below are permutations of each
other) give different results when one output's text contains another
placeholder-like sequence, so interpolation is not deterministic.  This
theorem evaluates the interpolator at that failing input. -/
theorem C6_interpolation_order_dependent :
    List.Perm [(gs "a", phOut (gs "b")), (gs "b", gs "X")]
      [(gs "b", gs "X"), (gs "a", phOut (gs "b"))] ∧
    interpolate (phOut (gs "a")) ⟨[], [(gs "a", phOut (gs "b")), (gs "b", gs "X")]⟩
      ≠ interpolate (phOut (gs "a")) ⟨[], [(gs "b", gs "X"), (gs "a", phOut (gs "b"))]⟩ := by
  constructor
  · exact List.Perm.swap _ _ _
  · decide

/-- Counterexample for C7: a scalar context value is not interpolated at all: the
`context.name` placeholder is left verbatim rather than rendered via its
string form, refuting the claim for scalar keys. -/
theorem C7_context_counterexample :
    interpolate (phCtx (gs "name")) ⟨[(gs "name", GoValue.str (gs "x"))], []⟩
      = phCtx (gs "name") ∧
    phCtx (gs "name") ≠ gs "x" := by
  decide

/-- Amended claim C7: only the context key `rules`, and only when its value is a
list, is interpolated: its placeholder renders as the newline-joined
dash-prefixed bullet list; when the global context holds no list under
`rules`, interpolation (with no step outputs) leaves every prompt unchanged,
so scalar context fields and other keys are left verbatim. -/
theorem C7_context_rules_amended :
    (∀ (g : List (GS × GoValue)) (es : List GS),
      lookupA g (gs "rules") = some (GoValue.list es) →
      interpolate (phCtx (gs "rules")) ⟨g, []⟩ = rulesBullets es) ∧
    (∀ (text : GS) (g : List (GS × GoValue)),
      (∀ es, lookupA g (gs "rules") ≠ some (GoValue.list es)) →
      interpolate text ⟨g, []⟩ = text) := by
  constructor
  · intro g es hg
    have h0 : interpolate (phCtx (gs "rules")) ⟨g, []⟩
        = match lookupA g (gs "rules") with
          | some (GoValue.list es) =>
            replaceAll (phCtx (gs "rules")) (rulesBullets es) (phCtx (gs "rules"))
          | _ => phCtx (gs "rules") := rfl
    rw [h0, hg]
    exact replaceAll_self _ _ (by decide)
  · intro text g hg
    have h0 : interpolate text ⟨g, []⟩
        = match lookupA g (gs "rules") with
          | some (GoValue.list es) =>
            replaceAll (phCtx (gs "rules")) (rulesBullets es) text
          | _ => text := rfl
    rw [h0]
    cases hl : lookupA g (gs "rules") with
    | none => rfl
    | some v =>
      cases v with
      | str s => rfl
      | list es => exact absurd hl (hg es)

/-- Witness for C7 (amended): a rules list renders as bullets; a scalar key
is left verbatim. -/
theorem C7_context_rules_amended_witness :
    interpolate (phCtx (gs "rules"))
        ⟨[(gs "rules", GoValue.list [gs "r1", gs "r2"])], []⟩ = gs "- r1\n- r2" ∧
    interpolate (phCtx (gs "goal")) ⟨[(gs "goal", GoValue.str (gs "ship"))], []⟩
      = phCtx (gs "goal") :=
  ⟨(C7_context_rules_amended.1 _ [gs "r1", gs "r2"] (by decide)).trans (by decide),
   C7_context_rules_amended.2 _ _
     (fun es h => Option.noConfusion
       ((by decide : lookupA [(gs "goal", GoValue.str (gs "ship"))] (gs "rules")
          = none).symm.trans h))⟩

theorem validateSteps_ok_iff (k : Nat) (ss : List Step) :
    validateSteps k ss = Except.ok () ↔ ∀ s ∈ ss, s.name ≠ [] ∧ s.prompt ≠ [] := by
  induction ss generalizing k with
  | nil => simp [validateSteps]
  | cons s rest ih =>
    by_cases h1 : s.name = []
    · rw [validateSteps, if_pos h1]
      constructor
      · exact fun h => Except.noConfusion h
      · intro h
        exact absurd h1 (h s (List.mem_cons_self _ _)).1
    · by_cases h2 : s.prompt = []
      · rw [validateSteps, if_neg h1, if_pos h2]
        constructor
        · exact fun h => Except.noConfusion h
        · intro h
          exact absurd h2 (h s (List.mem_cons_self _ _)).2
      · rw [validateSteps, if_neg h1, if_neg h2, ih]
        constructor
        · intro h t ht
          rcases List.mem_cons.mp ht with rfl | ht2
          · exact ⟨h1, h2⟩
          · exact h t ht2
        · intro h t ht
          exact h t (List.mem_cons_of_mem _ ht)

theorem validateSteps_err (ss : List Step) (k i : Nat) (s : Step)
    (hi : ss.get? i = some s)
    (hprev : ∀ j t, j < i → ss.get? j = some t → t.name ≠ [] ∧ t.prompt ≠ []) :
    (s.name = [] → validateSteps k ss
        = Except.error (gs "step " ++ natToGS (k + i + 1) ++ gs ": name is required")) ∧
    (s.name ≠ [] → s.prompt = [] → validateSteps k ss
        = Except.error (gs "step " ++ natToGS (k + i + 1) ++ gs " (" ++ s.name ++
            gs "): prompt is required")) := by
  induction ss generalizing k i with
  | nil => exact absurd hi (by simp)
  | cons a rest ih =>
    cases i with
    | zero =>
      have ha : a = s := Option.some.inj hi
      subst ha
      constructor
      · intro hn
        rw [validateSteps, if_pos hn]
      · intro hn hp
        rw [validateSteps, if_neg hn, if_pos hp]
    | succ i2 =>
      have hi2 : rest.get? i2 = some s := hi
      have hprev0 : a.name ≠ [] ∧ a.prompt ≠ [] :=
        hprev 0 a (Nat.succ_pos _) rfl
      have hprev2 : ∀ j t, j < i2 → rest.get? j = some t →
          t.name ≠ [] ∧ t.prompt ≠ [] :=
        fun j t hj ht => hprev (j + 1) t (Nat.succ_lt_succ hj) ht
      have h := ih (k + 1) i2 hi2 hprev2
      have harith : k + 1 + i2 + 1 = k + (i2 + 1) + 1 := by omega
      rw [harith] at h
      constructor
      · intro hn
        rw [validateSteps, if_neg hprev0.1, if_neg hprev0.2]
        exact h.1 hn
      · intro hn hp
        rw [validateSteps, if_neg hprev0.1, if_neg hprev0.2]
        exact h.2 hn hp

/-- Claim C9: validation, a pure check running before any agent process is spawned,
accepts a definition exactly when `agent.cmd` is non-empty, the step list is
non-empty, and every step has a non-empty name and prompt; the first
offending step is named in the error message (by its one-based number, and
for a missing prompt also by its name). -/
theorem C9_validate (p : Pipeline) :
    (Validate p = Except.ok () ↔
      p.agent.cmd ≠ [] ∧ p.steps ≠ [] ∧
        ∀ s ∈ p.steps, s.name ≠ [] ∧ s.prompt ≠ []) ∧
    (∀ i s, p.steps.get? i = some s → p.agent.cmd ≠ [] →
      (∀ j t, j < i → p.steps.get? j = some t → t.name ≠ [] ∧ t.prompt ≠ []) →
      (s.name = [] → Validate p
          = Except.error (gs "step " ++ natToGS (i + 1) ++ gs ": name is required")) ∧
      (s.name ≠ [] → s.prompt = [] → Validate p
          = Except.error (gs "step " ++ natToGS (i + 1) ++ gs " (" ++ s.name ++
              gs "): prompt is required"))) := by
  constructor
  · by_cases h1 : p.agent.cmd = []
    · rw [Validate, if_pos h1]
      constructor
      · exact fun h => Except.noConfusion h
      · rintro ⟨hc, -, -⟩
        exact absurd h1 hc
    · by_cases h2 : p.steps = []
      · rw [Validate, if_neg h1, if_pos h2]
        constructor
        · exact fun h => Except.noConfusion h
        · rintro ⟨-, hs, -⟩
          exact absurd h2 hs
      · rw [Validate, if_neg h1, if_neg h2, validateSteps_ok_iff]
        constructor
        · intro h
          exact ⟨h1, h2, h⟩
        · rintro ⟨-, -, h⟩
          exact h
  · intro i s hi hcmd hprev
    have hsteps : p.steps ≠ [] := by
      intro hx
      rw [hx] at hi
      simp at hi
    have h := validateSteps_err p.steps 0 i s hi hprev
    rw [Nat.zero_add] at h
    constructor
    · intro hn
      rw [Validate, if_neg hcmd, if_neg hsteps]
      exact h.1 hn
    · intro hn hp
      rw [Validate, if_neg hcmd, if_neg hsteps]
      exact h.2 hn hp

/-- Witness for C9: a well-formed definition validates; a definition whose
second step lacks a name is rejected with a message naming step 2. -/
theorem C9_validate_witness :
    Validate ⟨gs "p.yaml", ⟨gs "claude", []⟩, [],
      [⟨gs "ok", gs "prompt", [], [], [], none⟩]⟩ = Except.ok () ∧
    Validate ⟨gs "p.yaml", ⟨gs "claude", []⟩, [],
      [⟨gs "ok", gs "prompt", [], [], [], none⟩, ⟨[], gs "p2", [], [], [], none⟩]⟩
      = Except.error (gs "step 2: name is required") := by
  constructor
  · exact (C9_validate _).1.mpr ⟨by decide, by decide, by decide⟩
  · have h := (C9_validate ⟨gs "p.yaml", ⟨gs "claude", []⟩, [],
      [⟨gs "ok", gs "prompt", [], [], [], none⟩, ⟨[], gs "p2", [], [], [], none⟩]⟩).2
      1 ⟨[], gs "p2", [], [], [], none⟩ rfl (by decide)
      (by
        intro j t hj ht
        have hj0 : j = 0 := Nat.lt_one_iff.mp hj
        subst hj0
        have ht2 : t = ⟨gs "ok", gs "prompt", [], [], [], none⟩ :=
          (Option.some.inj ht).symm
        subst ht2
        exact ⟨by decide, by decide⟩)
    exact (h.1 rfl).trans (by decide)

theorem plusEntry_inj {p q : GS} (h : plusEntry p = plusEntry q) : p = q := by
  have h2 : '+' :: ' ' :: p = '+' :: ' ' :: q := h
  injection h2 with _ h3
  injection h3 with _ h4

theorem modEntry_inj {p q : GS} (h : modEntry p = modEntry q) : p = q := by
  have h2 : 'M' :: ' ' :: p = 'M' :: ' ' :: q := h
  injection h2 with _ h3
  injection h3 with _ h4

theorem minusEntry_inj {p q : GS} (h : minusEntry p = minusEntry q) : p = q := by
  have h2 : '-' :: ' ' :: p = '-' :: ' ' :: q := h
  injection h2 with _ h3
  injection h3 with _ h4

theorem plusEntry_ne_modEntry (p q : GS) : plusEntry p ≠ modEntry q := by
  intro h
  have h2 : '+' :: ' ' :: p = 'M' :: ' ' :: q := h
  injection h2 with hh ht
  exact absurd hh (by decide)

theorem plusEntry_ne_minusEntry (p q : GS) : plusEntry p ≠ minusEntry q := by
  intro h
  have h2 : '+' :: ' ' :: p = '-' :: ' ' :: q := h
  injection h2 with hh ht
  exact absurd hh (by decide)

theorem modEntry_ne_minusEntry (p q : GS) : modEntry p ≠ minusEntry q := by
  intro h
  have h2 : 'M' :: ' ' :: p = '-' :: ' ' :: q := h
  injection h2 with hh ht
  exact absurd hh (by decide)

theorem countGS_append (x : GS) (l1 l2 : List GS) :
    countGS x (l1 ++ l2) = countGS x l1 + countGS x l2 := by
  induction l1 with
  | nil => simp [countGS]
  | cons y rest ih => simp [countGS, ih, Nat.add_assoc]

theorem not_mem_of_countGS_zero {x : GS} {l : List GS}
    (h : countGS x l = 0) : x ∉ l := by
  induction l with
  | nil => simp
  | cons y rest ih =>
    rw [countGS] at h
    by_cases hyx : y = x
    · rw [if_pos hyx] at h
      omega
    · rw [if_neg hyx] at h
      simp only [Nat.zero_add] at h
      intro hm
      rcases List.mem_cons.mp hm with rfl | hm2
      · exact hyx rfl
      · exact ih h hm2

theorem countGS_filterMap_zero {β : Type} (f : β → Option GS) (l : List β) (x : GS)
    (h : ∀ a ∈ l, ∀ y, f a = some y → y ≠ x) : countGS x (l.filterMap f) = 0 := by
  induction l with
  | nil => rfl
  | cons a rest ih =>
    rw [List.filterMap_cons]
    cases hfa : f a with
    | none => exact ih (fun b hb y hy => h b (List.mem_cons_of_mem _ hb) y hy)
    | some y =>
      show countGS x (y :: List.filterMap f rest) = 0
      rw [countGS, if_neg (h a (List.mem_cons_self _ _) y hfa)]
      simpa using ih (fun b hb z hz => h b (List.mem_cons_of_mem _ hb) z hz)

theorem changeOfAfter_shape (before : List (GS × Nat)) (a : GS × Nat) (y : GS)
    (h : changeOfAfter before a = some y) :
    y = plusEntry a.1 ∨ y = modEntry a.1 := by
  obtain ⟨q, t⟩ := a
  rw [changeOfAfter] at h
  cases hl : lookupA before q with
  | none =>
    rw [hl] at h
    exact Or.inl (Option.some.inj h).symm
  | some bt =>
    rw [hl] at h
    have h2 : (if bt < t then some (modEntry q) else none) = some y := h
    by_cases hc : bt < t
    · rw [if_pos hc] at h2
      exact Or.inr (Option.some.inj h2).symm
    · rw [if_neg hc] at h2
      exact Option.noConfusion h2

theorem changeOfBefore_shape (after : List (GS × Nat)) (a : GS × Nat) (y : GS)
    (h : changeOfBefore after a = some y) : y = minusEntry a.1 := by
  obtain ⟨q, t⟩ := a
  rw [changeOfBefore] at h
  cases hl : lookupA after q with
  | none =>
    rw [hl] at h
    exact (Option.some.inj h).symm
  | some bt =>
    rw [hl] at h
    exact Option.noConfusion h

theorem count_plus_afterPart (before : List (GS × Nat)) (p : GS)
    (after : List (GS × Nat)) (hnd : (after.map Prod.fst).Nodup) :
    countGS (plusEntry p) (after.filterMap (changeOfAfter before))
      = if (lookupA after p).isSome ∧ lookupA before p = none then 1 else 0 := by
  induction after with
  | nil => simp [lookupA, countGS]
  | cons qt rest ih =>
    obtain ⟨q, t⟩ := qt
    have hq : q ∉ rest.map Prod.fst := by
      rw [List.map_cons] at hnd
      exact (List.nodup_cons.mp hnd).1
    have hnd2 : (rest.map Prod.fst).Nodup := by
      rw [List.map_cons] at hnd
      exact (List.nodup_cons.mp hnd).2
    have htail := ih hnd2
    by_cases hqp : q = p
    · subst hqp
      have hrest0 : countGS (plusEntry q) (rest.filterMap (changeOfAfter before)) = 0 := by
        apply countGS_filterMap_zero
        intro a ha y hy
        have ha1 : a.1 ≠ q := by
          intro hx
          exact hq (hx ▸ List.mem_map_of_mem Prod.fst ha)
        rcases changeOfAfter_shape before a y hy with rfl | rfl
        · exact fun hx => ha1 (plusEntry_inj hx)
        · exact fun hx => plusEntry_ne_modEntry q a.1 hx.symm
      have hmp : modEntry q ≠ plusEntry q := fun hx => plusEntry_ne_modEntry q q hx.symm
      cases hlb : lookupA before q with
      | none =>
        simp [List.filterMap_cons, changeOfAfter, hlb, countGS, hrest0, lookupA]
      | some bt =>
        by_cases hc : bt < t
        · simp [List.filterMap_cons, changeOfAfter, hlb, hc, countGS, hrest0, hmp, lookupA]
        · simp [List.filterMap_cons, changeOfAfter, hlb, hc, hrest0, lookupA]
    · have hlql : lookupA ((q, t) :: rest) p = lookupA rest p := by
        rw [lookupA, if_neg hqp]
      cases hhead : changeOfAfter before (q, t) with
      | none => simp [List.filterMap_cons, hhead, htail, hlql]
      | some y =>
        have hyne : y ≠ plusEntry p := by
          rcases changeOfAfter_shape before (q, t) y hhead with rfl | rfl
          · exact fun hx => hqp (plusEntry_inj hx)
          · exact fun hx => plusEntry_ne_modEntry p q hx.symm
        simp [List.filterMap_cons, hhead, countGS, hyne, htail, hlql]

theorem count_mod_afterPart (before : List (GS × Nat)) (p : GS) (bt at2 : Nat)
    (hlb : lookupA before p = some bt)
    (after : List (GS × Nat)) (hnd : (after.map Prod.fst).Nodup)
    (hla : lookupA after p = some at2) :
    countGS (modEntry p) (after.filterMap (changeOfAfter before))
      = if bt < at2 then 1 else 0 := by
  induction after with
  | nil =>
    rw [lookupA] at hla
    exact Option.noConfusion hla
  | cons qt rest ih =>
    obtain ⟨q, t⟩ := qt
    have hq : q ∉ rest.map Prod.fst := by
      rw [List.map_cons] at hnd
      exact (List.nodup_cons.mp hnd).1
    have hnd2 : (rest.map Prod.fst).Nodup := by
      rw [List.map_cons] at hnd
      exact (List.nodup_cons.mp hnd).2
    by_cases hqp : q = p
    · subst hqp
      rw [lookupA, if_pos rfl] at hla
      have ht : t = at2 := Option.some.inj hla
      subst ht
      have hrest0 : countGS (modEntry q) (rest.filterMap (changeOfAfter before)) = 0 := by
        apply countGS_filterMap_zero
        intro a ha y hy
        have ha1 : a.1 ≠ q := by
          intro hx
          exact hq (hx ▸ List.mem_map_of_mem Prod.fst ha)
        rcases changeOfAfter_shape before a y hy with rfl | rfl
        · exact fun hx => plusEntry_ne_modEntry a.1 q hx
        · exact fun hx => ha1 (modEntry_inj hx)
      by_cases hc : bt < t
      · simp [List.filterMap_cons, changeOfAfter, hlb, hc, countGS, hrest0]
      · simp [List.filterMap_cons, changeOfAfter, hlb, hc, hrest0]
    · rw [lookupA, if_neg hqp] at hla
      have htail := ih hnd2 hla
      cases hhead : changeOfAfter before (q, t) with
      | none => simp [List.filterMap_cons, hhead, htail]
      | some y =>
        have hyne : y ≠ modEntry p := by
          rcases changeOfAfter_shape before (q, t) y hhead with rfl | rfl
          · exact fun hx => plusEntry_ne_modEntry q p hx
          · exact fun hx => hqp (modEntry_inj hx)
        simp [List.filterMap_cons, hhead, countGS, hyne, htail]

theorem count_minus_beforePart (after : List (GS × Nat)) (p : GS)
    (before : List (GS × Nat)) (hnd : (before.map Prod.fst).Nodup) :
    countGS (minusEntry p) (before.filterMap (changeOfBefore after))
      = if (lookupA before p).isSome ∧ lookupA after p = none then 1 else 0 := by
  induction before with
  | nil => simp [lookupA, countGS]
  | cons qt rest ih =>
    obtain ⟨q, t⟩ := qt
    have hq : q ∉ rest.map Prod.fst := by
      rw [List.map_cons] at hnd
      exact (List.nodup_cons.mp hnd).1
    have hnd2 : (rest.map Prod.fst).Nodup := by
      rw [List.map_cons] at hnd
      exact (List.nodup_cons.mp hnd).2
    have htail := ih hnd2
    by_cases hqp : q = p
    · subst hqp
      have hrest0 : countGS (minusEntry q) (rest.filterMap (changeOfBefore after)) = 0 := by
        apply countGS_filterMap_zero
        intro a ha y hy
        have ha1 : a.1 ≠ q := by
          intro hx
          exact hq (hx ▸ List.mem_map_of_mem Prod.fst ha)
        have hsh := changeOfBefore_shape after a y hy
        subst hsh
        exact fun hx => ha1 (minusEntry_inj hx)
      cases hlb : lookupA after q with
      | none =>
        simp [List.filterMap_cons, changeOfBefore, hlb, countGS, hrest0, lookupA]
      | some bt =>
        simp [List.filterMap_cons, changeOfBefore, hlb, hrest0, lookupA]
    · have hlql : lookupA ((q, t) :: rest) p = lookupA rest p := by
        rw [lookupA, if_neg hqp]
      cases hhead : changeOfBefore after (q, t) with
      | none => simp [List.filterMap_cons, hhead, htail, hlql]
      | some y =>
        have hsh := changeOfBefore_shape after (q, t) y hhead
        subst hsh
        have hyne : minusEntry q ≠ minusEntry p := fun hx => hqp (minusEntry_inj hx)
        simp [List.filterMap_cons, hhead, countGS, hyne, htail, hlql]

/-- Claim C8: for snapshots with duplicate-free path keys, file-change detection
reports exactly one `+ path` entry for a path present only in the after
snapshot, exactly one `M path` entry for a path present in both whose after
modification time is strictly later, exactly one `- path` entry for a path
present only in the before snapshot, and reports nothing at all for a path
whose modification time is unchanged. -/
theorem C8_detect_file_changes (before after : List (GS × Nat)) (p : GS)
    (hb : (before.map Prod.fst).Nodup) (ha : (after.map Prod.fst).Nodup) :
    (countGS (plusEntry p) (detectFileChanges before after)
      = if (lookupA after p).isSome ∧ lookupA before p = none then 1 else 0) ∧
    (∀ bt at2, lookupA before p = some bt → lookupA after p = some at2 →
      countGS (modEntry p) (detectFileChanges before after)
        = if bt < at2 then 1 else 0) ∧
    (countGS (minusEntry p) (detectFileChanges before after)
      = if (lookupA before p).isSome ∧ lookupA after p = none then 1 else 0) ∧
    (∀ t, lookupA before p = some t → lookupA after p = some t →
      plusEntry p ∉ detectFileChanges before after ∧
      modEntry p ∉ detectFileChanges before after ∧
      minusEntry p ∉ detectFileChanges before after) := by
  have hplus2 : countGS (plusEntry p) (before.filterMap (changeOfBefore after)) = 0 := by
    apply countGS_filterMap_zero
    intro a ha2 y hy
    have hsh := changeOfBefore_shape after a y hy
    subst hsh
    exact fun hx => plusEntry_ne_minusEntry p a.1 hx.symm
  have hmod2 : countGS (modEntry p) (before.filterMap (changeOfBefore after)) = 0 := by
    apply countGS_filterMap_zero
    intro a ha2 y hy
    have hsh := changeOfBefore_shape after a y hy
    subst hsh
    exact fun hx => modEntry_ne_minusEntry p a.1 hx.symm
  have hminus1 : countGS (minusEntry p) (after.filterMap (changeOfAfter before)) = 0 := by
    apply countGS_filterMap_zero
    intro a ha2 y hy
    rcases changeOfAfter_shape before a y hy with rfl | rfl
    · exact fun hx => plusEntry_ne_minusEntry a.1 p hx
    · exact fun hx => modEntry_ne_minusEntry a.1 p hx
  refine ⟨?_, ?_, ?_, ?_⟩
  · rw [detectFileChanges, countGS_append, hplus2, Nat.add_zero,
      count_plus_afterPart before p after ha]
  · intro bt at2 hlb hla
    rw [detectFileChanges, countGS_append, hmod2, Nat.add_zero,
      count_mod_afterPart before p bt at2 hlb after ha hla]
  · rw [detectFileChanges, countGS_append, hminus1, Nat.zero_add,
      count_minus_beforePart after p before hb]
  · intro t hlb hla
    refine ⟨?_, ?_, ?_⟩
    · apply not_mem_of_countGS_zero
      rw [detectFileChanges, countGS_append, hplus2, Nat.add_zero,
        count_plus_afterPart before p after ha,
        if_neg (by
          rintro ⟨-, hno⟩
          rw [hlb] at hno
          exact Option.noConfusion hno)]
    · apply not_mem_of_countGS_zero
      rw [detectFileChanges, countGS_append, hmod2, Nat.add_zero,
        count_mod_afterPart before p t t hlb after ha hla, if_neg (Nat.lt_irrefl t)]
    · apply not_mem_of_countGS_zero
      rw [detectFileChanges, countGS_append, hminus1, Nat.zero_add,
        count_minus_beforePart after p before hb,
        if_neg (by
          rintro ⟨-, hno⟩
          rw [hla] at hno
          exact Option.noConfusion hno)]

/-- Witness for C8: a concrete snapshot pair with one added, one modified,
one deleted and one unchanged file. -/
theorem C8_detect_file_changes_witness :
    countGS (plusEntry (gs "d"))
      (detectFileChanges [(gs "a", 1), (gs "b", 2), (gs "c", 3)]
        [(gs "a", 1), (gs "b", 5), (gs "d", 4)]) = 1 ∧
    countGS (modEntry (gs "b"))
      (detectFileChanges [(gs "a", 1), (gs "b", 2), (gs "c", 3)]
        [(gs "a", 1), (gs "b", 5), (gs "d", 4)]) = 1 ∧
    countGS (minusEntry (gs "c"))
      (detectFileChanges [(gs "a", 1), (gs "b", 2), (gs "c", 3)]
        [(gs "a", 1), (gs "b", 5), (gs "d", 4)]) = 1 ∧
    plusEntry (gs "a") ∉
      detectFileChanges [(gs "a", 1), (gs "b", 2), (gs "c", 3)]
        [(gs "a", 1), (gs "b", 5), (gs "d", 4)] ∧
    modEntry (gs "a") ∉
      detectFileChanges [(gs "a", 1), (gs "b", 2), (gs "c", 3)]
        [(gs "a", 1), (gs "b", 5), (gs "d", 4)] ∧
    minusEntry (gs "a") ∉
      detectFileChanges [(gs "a", 1), (gs "b", 2), (gs "c", 3)]
        [(gs "a", 1), (gs "b", 5), (gs "d", 4)] := by
  have hd := C8_detect_file_changes [(gs "a", 1), (gs "b", 2), (gs "c", 3)]
    [(gs "a", 1), (gs "b", 5), (gs "d", 4)] (gs "d") (by decide) (by decide)
  have hbm := C8_detect_file_changes [(gs "a", 1), (gs "b", 2), (gs "c", 3)]
    [(gs "a", 1), (gs "b", 5), (gs "d", 4)] (gs "b") (by decide) (by decide)
  have hc := C8_detect_file_changes [(gs "a", 1), (gs "b", 2), (gs "c", 3)]
    [(gs "a", 1), (gs "b", 5), (gs "d", 4)] (gs "c") (by decide) (by decide)
  have haa := C8_detect_file_changes [(gs "a", 1), (gs "b", 2), (gs "c", 3)]
    [(gs "a", 1), (gs "b", 5), (gs "d", 4)] (gs "a") (by decide) (by decide)
  have hun := haa.2.2.2 1 (by decide) (by decide)
  exact ⟨hd.1.trans (by decide),
    (hbm.2.1 2 5 (by decide) (by decide)).trans (by decide),
    hc.2.2.1.trans (by decide),
    hun.1, hun.2.1, hun.2.2⟩

theorem getLast?_append_some {α : Type} (l1 l2 : List α) (x : α)
    (h : l2.getLast? = some x) : (l1 ++ l2).getLast? = some x := by
  rw [List.getLast?_append, h]
  rfl

theorem eventIndex_mem_ite (c : Prop) [Decidable c] (i : Nat) (cs : List GS) (ev : Event)
    (h : ev ∈ (if c then [Event.fileChanged i cs] else [])) : eventIndex ev = i := by
  by_cases hc : c
  · rw [if_pos hc] at h
    rcases List.mem_cons.mp h with rfl | h2
    · rfl
    · cases h2
  · rw [if_neg hc] at h
    cases h

theorem lastSavedOr_cons (st : PipelineState) (saves : List PipelineState)
    (d : Option PipelineState) :
    lastSavedOr (st :: saves) d = lastSavedOr saves (some st) := by
  have h1 : (st :: saves).getLast? = saves.getLast?.or (some st) := by
    have h0 : st :: saves = [st] ++ saves := rfl
    rw [h0, List.getLast?_append]
    rfl
  rw [lastSavedOr, lastSavedOr, h1]
  cases saves.getLast? with
  | none => rfl
  | some x => rfl

/-- Claim C1: in every run of the step loop, if the agent invocation of a step
fails the engine reports the step-completed callback with that agent error
as the final event and returns at once — no event or agent invocation
belongs to any later step — and the checkpoint on disk is the last one saved
(the initial one when no step of this run succeeded); and when every iterated
step succeeds the checkpoint is deleted before returning success. -/
theorem C1_fail_fast (inp : EngineInput) (global : List (GS × GoValue))
    (steps : List Step) (i : Nat) (outputs artifacts : List (GS × GS))
    (disk : Option PipelineState) :
    ((runSteps inp global steps i outputs artifacts disk).outcome = .ok →
      (runSteps inp global steps i outputs artifacts disk).checkpoint = none) ∧
    (∀ j msg, (runSteps inp global steps i outputs artifacts disk).outcome
        = .stepFailed j msg →
      i ≤ j ∧
      ∃ e stepName, inp.agentResult j = .error e ∧
        msg = gs "step " ++ stepName ++ gs " failed: " ++ e ∧
        (runSteps inp global steps i outputs artifacts disk).events.getLast?
          = some (.completedErr j e) ∧
        (∀ ev ∈ (runSteps inp global steps i outputs artifacts disk).events,
          eventIndex ev ≤ j) ∧
        (∀ q ∈ (runSteps inp global steps i outputs artifacts disk).invocations,
          q.1 ≤ j) ∧
        (runSteps inp global steps i outputs artifacts disk).checkpoint
          = lastSavedOr (runSteps inp global steps i outputs artifacts disk).saved
              disk) := by
  induction steps generalizing i outputs artifacts disk with
  | nil =>
    constructor
    · intro _
      rfl
    · intro j msg h
      have h2 : RunOutcome.ok = RunOutcome.stepFailed j msg := h
      exact RunOutcome.noConfusion h2
  | cons step more ih =>
    cases hcond : evaluateCondition step.when outputs artifacts with
    | false =>
      rw [runSteps_cons_skip inp global step more i outputs artifacts disk hcond]
      have h := ih (i + 1) outputs artifacts disk
      refine ⟨h.1, fun j msg hf => ?_⟩
      obtain ⟨hij, hrest⟩ := h.2 j msg hf
      exact ⟨Nat.le_of_succ_le hij, hrest⟩
    | true =>
      cases hares : inp.agentResult i with
      | error e =>
        rw [runSteps_cons_err inp global step more i outputs artifacts disk e hcond hares]
        constructor
        · intro h
          have h2 : RunOutcome.stepFailed i
              (gs "step " ++ step.name ++ gs " failed: " ++ e) = RunOutcome.ok := h
          exact RunOutcome.noConfusion h2
        · intro j msg h
          have h2 : RunOutcome.stepFailed i
              (gs "step " ++ step.name ++ gs " failed: " ++ e)
              = RunOutcome.stepFailed j msg := h
          injection h2 with hij hmsg
          subst hij
          refine ⟨Nat.le_refl i, e, step.name, hares, hmsg.symm, rfl, ?_, ?_, rfl⟩
          · intro ev hev
            rcases List.mem_cons.mp hev with rfl | hev2
            · exact Nat.le_refl i
            rcases List.mem_cons.mp hev2 with rfl | hev3
            · exact Nat.le_refl i
            · cases hev3
          · intro q hq
            rcases List.mem_cons.mp hq with rfl | hq2
            · exact Nat.le_refl i
            · cases hq2
      | ok out =>
        rw [runSteps_cons_ok inp global step more i outputs artifacts disk out hcond hares]
        have h := ih (i + 1) (stepOutputs2 inp step outputs artifacts out)
          (stepOA inp step outputs artifacts).2
          (some ⟨i, stepOutputs2 inp step outputs artifacts out⟩)
        constructor
        · intro hok
          exact h.1 hok
        · intro j msg hf
          obtain ⟨hij, e, stepName, he, hmsg, hlast, hevs, hinvs, hcp⟩ := h.2 j msg hf
          refine ⟨Nat.le_of_succ_le hij, e, stepName, he, hmsg, ?_, ?_, ?_, ?_⟩
          · exact getLast?_append_some _ _ _ hlast
          · intro ev hev
            rcases List.mem_append.mp hev with hABC | hD
            · rcases List.mem_append.mp hABC with hAB | hC
              · rcases List.mem_append.mp hAB with hA | hB
                · rcases List.mem_cons.mp hA with rfl | hA2
                  · exact Nat.le_of_succ_le hij
                  · cases hA2
                · rw [eventIndex_mem_ite _ i _ ev hB]
                  exact Nat.le_of_succ_le hij
              · rcases List.mem_cons.mp hC with rfl | hC2
                · exact Nat.le_of_succ_le hij
                rcases List.mem_cons.mp hC2 with rfl | hC3
                · exact Nat.le_of_succ_le hij
                · cases hC3
            · exact hevs ev hD
          · intro q hq
            rcases List.mem_cons.mp hq with rfl | hq2
            · exact Nat.le_of_succ_le hij
            · exact hinvs q hq2
          · show (runSteps inp global more (i + 1)
                (stepOutputs2 inp step outputs artifacts out)
                (stepOA inp step outputs artifacts).2
                (some ⟨i, stepOutputs2 inp step outputs artifacts out⟩)).checkpoint
              = lastSavedOr ((⟨i, stepOutputs2 inp step outputs artifacts out⟩ :
                  PipelineState) ::
                (runSteps inp global more (i + 1)
                  (stepOutputs2 inp step outputs artifacts out)
                  (stepOA inp step outputs artifacts).2
                  (some ⟨i, stepOutputs2 inp step outputs artifacts out⟩)).saved) disk
            rw [lastSavedOr_cons]
            exact hcp

/-- Witness for C1: a failing one-step run ends with the error completion
event, keeps the initial (absent) checkpoint, and fails fast. -/
theorem C1_fail_fast_witness :
    (runSteps inpW1 [] [stepW1] 0 [] [] none).events.getLast?
      = some (.completedErr 0 (gs "boom")) ∧
    (runSteps inpW1 [] [stepW1] 0 [] [] none).checkpoint = none ∧
    (runSteps inpW1 [] [stepW1] 0 [] [] none).outcome
      = .stepFailed 0 (gs "step s1 failed: boom") := by
  refine ⟨?_, by decide, by decide⟩
  have h := (C1_fail_fast inpW1 [] [stepW1] 0 [] [] none).2 0
    (gs "step s1 failed: boom") (by decide)
  obtain ⟨-, e, nm, he, -, hlast, -, -, -⟩ := h
  have he2 : (Except.error (gs "boom") : Except GS GS) = Except.error e := he
  injection he2 with hE
  rw [← hE] at hlast
  exact hlast

theorem outputEntry_hasSub_buildPrompt (g : List (GS × GoValue))
    (outs : List (GS × GS)) (task k v : GS) (hm : (k, v) ∈ outs) :
    hasSub (outputEntry k v) (buildPrompt ⟨g, outs⟩ task) = true := by
  rw [hasSub_iff]
  have hne : outs ≠ [] := List.ne_nil_of_mem hm
  obtain ⟨u, w, hsec⟩ : ∃ u w, outputsSection outs = u ++ outputEntry k v ++ w := by
    induction outs with
    | nil => cases hm
    | cons a rest ih2 =>
      rcases List.mem_cons.mp hm with ha | hm2
      · refine ⟨[], outputsSection rest, ?_⟩
        rw [outputsSection, ← ha]
        simp
      · obtain ⟨u, w, h⟩ := ih2 hm2 (List.ne_nil_of_mem hm2)
        refine ⟨outputEntry a.1 a.2 ++ u, w, ?_⟩
        rw [outputsSection, h]
        simp [List.append_assoc]
  refine ⟨gs "=== CONTEXTO GLOBAL ===\n" ++ globalSection g ++
    gs "\n=== OUTPUT PASOS ANTERIORES ===\n" ++ u,
    w ++ gs "=== NUEVA TAREA ===\n" ++ task, ?_⟩
  rw [buildPrompt, if_neg hne, hsec]
  simp [List.append_assoc]

theorem runSteps_key_invariant (inp : EngineInput) (global : List (GS × GoValue))
    (steps : List Step) (k v : GS) :
    ∀ (i : Nat) (outputs artifacts : List (GS × GS)) (disk : Option PipelineState),
    lookupA outputs k = some v →
    (∀ s ∈ steps, s.name ≠ k) →
    (∀ s ∈ steps, s.loadFrom ≠ [] → artifactKey s.loadFrom ≠ k) →
    (∀ q ∈ (runSteps inp global steps i outputs artifacts disk).invocations,
      hasSub (outputEntry k v) q.2 = true) ∧
    (∀ c ∈ (runSteps inp global steps i outputs artifacts disk).saved,
      lookupA c.outputs k = some v) := by
  induction steps with
  | nil =>
    intro i outputs artifacts disk hk hn hl
    constructor
    · intro q hq
      cases hq
    · intro c hc
      cases hc
  | cons step more ih =>
    intro i outputs artifacts disk hk hn hl
    have hname : step.name ≠ k := hn step (List.mem_cons_self _ _)
    have hload : step.loadFrom ≠ [] → artifactKey step.loadFrom ≠ k :=
      hl step (List.mem_cons_self _ _)
    have hn2 : ∀ s ∈ more, s.name ≠ k :=
      fun s hs => hn s (List.mem_cons_of_mem _ hs)
    have hl2 : ∀ s ∈ more, s.loadFrom ≠ [] → artifactKey s.loadFrom ≠ k :=
      fun s hs => hl s (List.mem_cons_of_mem _ hs)
    have hk1 : lookupA (stepOA inp step outputs artifacts).1 k = some v := by
      rw [stepOA]
      by_cases hlf : step.loadFrom ≠ []
      · rw [if_pos hlf]
        cases hart : inp.loadArtifact step.loadFrom with
        | none => exact hk
        | some content =>
          show lookupA (updateA outputs (artifactKey step.loadFrom) content) k = some v
          rw [lookupA_updateA_ne _ _ _ _ (hload hlf)]
          exact hk
      · rw [if_neg hlf]
        exact hk
    cases hcond : evaluateCondition step.when outputs artifacts with
    | false =>
      rw [runSteps_cons_skip inp global step more i outputs artifacts disk hcond]
      exact ih (i + 1) outputs artifacts disk hk hn2 hl2
    | true =>
      cases hares : inp.agentResult i with
      | error e =>
        rw [runSteps_cons_err inp global step more i outputs artifacts disk e hcond hares]
        constructor
        · intro q hq
          rcases List.mem_cons.mp hq with rfl | hq2
          · exact outputEntry_hasSub_buildPrompt global _ _ k v (lookupA_mem _ _ _ hk1)
          · cases hq2
        · intro c hc
          cases hc
      | ok out =>
        rw [runSteps_cons_ok inp global step more i outputs artifacts disk out hcond hares]
        have hk2 : lookupA (stepOutputs2 inp step outputs artifacts out) k = some v := by
          rw [stepOutputs2, lookupA_updateA_ne _ _ _ _ hname]
          exact hk1
        have hrest := ih (i + 1) (stepOutputs2 inp step outputs artifacts out)
          (stepOA inp step outputs artifacts).2
          (some ⟨i, stepOutputs2 inp step outputs artifacts out⟩) hk2 hn2 hl2
        constructor
        · intro q hq
          rcases List.mem_cons.mp hq with rfl | hq2
          · exact outputEntry_hasSub_buildPrompt global _ _ k v (lookupA_mem _ _ _ hk1)
          · exact hrest.1 q hq2
        · intro c hc
          rcases List.mem_cons.mp hc with rfl | hc2
          · exact hk2
          · exact hrest.2 c hc2

/-- Claim C10: when a step with a `load_from` artifact is executed (its condition
holds) and the artifact loads successfully, the content is stored in the
Outputs map under the `artifact.`-prefixed extension-stripped key, so —
provided no later step name or loaded-artifact key collides with that key —
the artifact content appears as a prior-outputs section entry of every
composed prompt from this step on, and under that key in the Outputs
snapshot of every subsequently saved checkpoint. -/
theorem C10_artifact_in_outputs (inp : EngineInput) (global : List (GS × GoValue))
    (step : Step) (more : List Step) (i : Nat)
    (outputs artifacts : List (GS × GS)) (disk : Option PipelineState) (content : GS)
    (hloadne : step.loadFrom ≠ [])
    (hcontent : inp.loadArtifact step.loadFrom = some content)
    (hcond : evaluateCondition step.when outputs artifacts = true)
    (hname : ∀ s ∈ step :: more, s.name ≠ artifactKey step.loadFrom)
    (hothers : ∀ s ∈ more, s.loadFrom ≠ [] →
      artifactKey s.loadFrom ≠ artifactKey step.loadFrom) :
    (∀ q ∈ (runSteps inp global (step :: more) i outputs artifacts disk).invocations,
      hasSub (outputEntry (artifactKey step.loadFrom) content) q.2 = true) ∧
    (∀ c ∈ (runSteps inp global (step :: more) i outputs artifacts disk).saved,
      lookupA c.outputs (artifactKey step.loadFrom) = some content) := by
  have hk1 : lookupA (stepOA inp step outputs artifacts).1 (artifactKey step.loadFrom)
      = some content := by
    rw [stepOA, if_pos hloadne, hcontent]
    show lookupA (updateA outputs (artifactKey step.loadFrom) content)
      (artifactKey step.loadFrom) = some content
    exact lookupA_updateA_self _ _ _
  cases hares : inp.agentResult i with
  | error e =>
    rw [runSteps_cons_err inp global step more i outputs artifacts disk e hcond hares]
    constructor
    · intro q hq
      rcases List.mem_cons.mp hq with rfl | hq2
      · exact outputEntry_hasSub_buildPrompt global _ _ _ _ (lookupA_mem _ _ _ hk1)
      · cases hq2
    · intro c hc
      cases hc
  | ok out =>
    rw [runSteps_cons_ok inp global step more i outputs artifacts disk out hcond hares]
    have hk2 : lookupA (stepOutputs2 inp step outputs artifacts out)
        (artifactKey step.loadFrom) = some content := by
      rw [stepOutputs2,
        lookupA_updateA_ne _ _ _ _ (hname step (List.mem_cons_self _ _))]
      exact hk1
    have hrest := runSteps_key_invariant inp global more (artifactKey step.loadFrom)
      content (i + 1) (stepOutputs2 inp step outputs artifacts out)
      (stepOA inp step outputs artifacts).2
      (some ⟨i, stepOutputs2 inp step outputs artifacts out⟩) hk2
      (fun s hs => hname s (List.mem_cons_of_mem _ hs)) hothers
    constructor
    · intro q hq
      rcases List.mem_cons.mp hq with rfl | hq2
      · exact outputEntry_hasSub_buildPrompt global _ _ _ _ (lookupA_mem _ _ _ hk1)
      · exact hrest.1 q hq2
    · intro c hc
      rcases List.mem_cons.mp hc with rfl | hc2
      · exact hk2
      · exact hrest.2 c hc2

/-- Witness for C10: a two-step run whose first step loads `notes.txt`; the
loaded content appears in the second step's composed prompt and in the
second checkpoint's Outputs snapshot. -/
theorem C10_artifact_in_outputs_witness :
    hasSub (outputEntry (artifactKey stepW10.loadFrom) (gs "hello"))
      ((runSteps inpW10 [] [stepW10, stepW10b] 0 [] [] none).invocations.getD 1
        (0, [])).2 = true ∧
    lookupA ((runSteps inpW10 [] [stepW10, stepW10b] 0 [] [] none).saved.getD 1
      ⟨0, []⟩).outputs (artifactKey stepW10.loadFrom) = some (gs "hello") := by
  have h := C10_artifact_in_outputs inpW10 [] stepW10 [stepW10b] 0 [] [] none
    (gs "hello") (by decide) (by decide) (by decide) (by decide) (by decide)
  exact ⟨h.1 _ (by decide), h.2 _ (by decide)⟩
